import Mathlib

/-!
Verification of the OSI kernel plumbing (pipes, FIFOs, work queues,
notifications) and the SPI-NOR flash HAL of this repository, as a shallow
embedding in Lean 4.

Sources embedded:
- components/kernel/src/osi_pipe.c  (pipe ring buffer)
- components/kernel/src/osi_fifo.c  (byte FIFO)
- components/kernel/src/osi_work.c  (work queues, notifications)
- components/kernel/src/osi_freertos.c (event dispatch, Notify branch)
- the SPI flash HAL translation unit (write-protect maps, security
  registers, property lookup)

Modelling conventions: the read and write counters `rd`/`wr` are modelled
as ideal monotonic counters, following the data model stated in the design
document (monotonic counters, wrap-around only in indexing); semaphore
releases and user callbacks do not change the modelled state and are
recorded only where a claim needs them; pointers are modelled by ids.
-/

/-! ### Generic list helpers -/

/-- Extensionality for byte lists through `getD`: equal lengths and equal
entries at every in-range index give equal lists. -/
theorem listEqOfGetD (l₁ l₂ : List UInt8) (hlen : l₁.length = l₂.length)
    (h : ∀ i, i < l₁.length → l₁.getD i 0 = l₂.getD i 0) : l₁ = l₂ := by
  apply List.ext_getElem hlen
  intro i h₁ h₂
  have := h i h₁
  rwa [List.getD_eq_getElem l₁ 0 h₁, List.getD_eq_getElem l₂ 0 h₂] at this

/-- Value of `getD` on an append, by cases on which side the index hits. -/
theorem getD_append_cases (l₁ l₂ : List UInt8) (i : Nat) :
    (l₁ ++ l₂).getD i 0 = if i < l₁.length then l₁.getD i 0 else l₂.getD (i - l₁.length) 0 := by
  by_cases h : i < l₁.length
  · simp only [h, if_pos]
    rw [List.getD_eq_getElem (l₁ ++ l₂) 0 (by simp; omega), List.getD_eq_getElem l₁ 0 h]
    exact List.getElem_append_left h
  · simp only [h, if_neg, not_false_iff]
    rcases Nat.lt_or_ge i (l₁.length + l₂.length) with hlt | hge
    · rw [List.getD_eq_getElem (l₁ ++ l₂) 0 (by simpa using hlt),
        List.getD_eq_getElem l₂ 0 (by omega)]
      exact List.getElem_append_right (by omega)
    · rw [List.getD_eq_default _ _ (by simpa using hge), List.getD_eq_default _ _ (by omega)]

/-- Value of `getD` on a take, within range. -/
theorem getD_take (l : List UInt8) (m i : Nat) (h : i < m) :
    (l.take m).getD i 0 = l.getD i 0 := by
  rcases Nat.lt_or_ge i l.length with hi | hi
  · rw [List.getD_eq_getElem (l.take m) 0 (by simp; omega), List.getD_eq_getElem l 0 hi]
    simp
  · rw [List.getD_eq_default _ _ (by simp; omega), List.getD_eq_default _ _ hi]

/-- Value of `getD` on a drop. -/
theorem getD_drop (l : List UInt8) (m i : Nat) :
    (l.drop m).getD i 0 = l.getD (m + i) 0 := by
  rcases Nat.lt_or_ge (m + i) l.length with hi | hi
  · rw [List.getD_eq_getElem (l.drop m) 0 (by simp; omega), List.getD_eq_getElem l 0 hi]
    simp [List.getElem_drop]
  · rw [List.getD_eq_default _ _ (by simp; omega), List.getD_eq_default _ _ hi]

/-! ### Ring-buffer segment copies

Both `osiPipeRead`/`osiPipeWrite` and `osiFifoPut`/`_peekInternal` copy
through the ring in one or two `memcpy` segments, splitting at the buffer
end (`tail = size - offset`). The two helpers below are the common shape of
those copies. -/

/-- Copy `len` bytes out of the ring starting at `offset`, in one segment
when `tail >= len` and otherwise in two (end of buffer, then start), as in
`osiPipeRead` and `_peekInternal`. -/
def segRead (data : List UInt8) (size offset len : Nat) : List UInt8 :=
  let tail := size - offset
  if len ≤ tail then (data.drop offset).take len
  else (data.drop offset).take tail ++ data.take (len - tail)

/-- Replace the bytes of `data` from `offset` on by `bs` (in-range plain
`memcpy`). -/
def listOverwrite (data : List UInt8) (offset : Nat) (bs : List UInt8) : List UInt8 :=
  data.take offset ++ bs ++ data.drop (offset + bs.length)

/-- Copy `bs` into the ring starting at `offset`, in one segment when
`tail >= len` and otherwise in two, as in `osiPipeWrite` and `osiFifoPut`. -/
def segWrite (data : List UInt8) (size offset : Nat) (bs : List UInt8) : List UInt8 :=
  let len := bs.length
  let tail := size - offset
  if len ≤ tail then listOverwrite data offset bs
  else listOverwrite (listOverwrite data offset (bs.take tail)) 0 (bs.drop tail)

theorem segRead_length (data : List UInt8) (size offset len : Nat)
    (hdata : data.length = size) (hoff : offset < size) (hlen : len ≤ size) :
    (segRead data size offset len).length = len := by
  unfold segRead
  by_cases h : len ≤ size - offset <;> simp [h, hdata] <;> omega

theorem segRead_getD (data : List UInt8) (size offset len : Nat)
    (hdata : data.length = size) (hoff : offset < size) (hlen : len ≤ size)
    (i : Nat) (hi : i < len) :
    (segRead data size offset len).getD i 0 = data.getD ((offset + i) % size) 0 := by
  unfold segRead
  by_cases h : len ≤ size - offset
  · simp only [h, if_pos]
    rw [getD_take _ _ _ hi, getD_drop, Nat.mod_eq_of_lt (by omega)]
  · simp only [h, if_neg, not_false_iff]
    rw [getD_append_cases]
    by_cases hi2 : i < size - offset
    · rw [if_pos (by simp [hdata]; omega)]
      rw [getD_take _ _ _ hi2, getD_drop, Nat.mod_eq_of_lt (by omega)]
    · rw [if_neg (by simp [hdata]; omega)]
      have hlt : offset + i - size < size := by omega
      have : (offset + i) % size = offset + i - size := by
        rw [Nat.mod_eq_sub_mod (by omega), Nat.mod_eq_of_lt hlt]
      rw [this]
      have : (data.drop offset).take (size - offset) = data.drop offset := by
        apply List.take_of_length_le; simp [hdata]
      rw [this]
      simp only [List.length_drop, hdata]
      rw [getD_take _ _ _ (by omega)]
      congr 1
      omega

theorem listOverwrite_length (data : List UInt8) (offset : Nat) (bs : List UInt8)
    (h : offset + bs.length ≤ data.length) :
    (listOverwrite data offset bs).length = data.length := by
  unfold listOverwrite
  simp
  omega

theorem listOverwrite_getD (data : List UInt8) (offset : Nat) (bs : List UInt8)
    (h : offset + bs.length ≤ data.length) (j : Nat) :
    (listOverwrite data offset bs).getD j 0 =
      if offset ≤ j ∧ j < offset + bs.length then bs.getD (j - offset) 0
      else data.getD j 0 := by
  unfold listOverwrite
  rw [getD_append_cases]
  have hl : (data.take offset ++ bs).length = offset + bs.length := by
    simp
    omega
  rw [hl, getD_append_cases]
  by_cases h1 : j < offset + bs.length
  · rw [if_pos h1]
    by_cases h2 : j < offset
    · rw [if_pos (show j < (data.take offset).length by rw [List.length_take]; omega),
        getD_take _ _ _ h2, if_neg (by omega)]
    · rw [if_neg (show ¬ j < (data.take offset).length by rw [List.length_take]; omega),
        if_pos (by omega)]
      congr 1
      rw [List.length_take]
      omega
  · rw [if_neg h1, if_neg (by omega), getD_drop]
    rcases Nat.lt_or_ge j data.length with hj | hj
    · congr 1
      omega
    · rw [List.getD_eq_default _ _ (by omega), List.getD_eq_default _ _ (by omega)]

theorem segWrite_length (data : List UInt8) (size offset : Nat) (bs : List UInt8)
    (hdata : data.length = size) (hoff : offset < size) (hlen : bs.length ≤ size) :
    (segWrite data size offset bs).length = size := by
  unfold segWrite
  by_cases h : bs.length ≤ size - offset
  · simp only [h, if_pos]
    rw [listOverwrite_length _ _ _ (by omega)]; exact hdata
  · simp only [h, if_neg, not_false_iff]
    rw [listOverwrite_length, listOverwrite_length _ _ _ (by simp; omega)]
    · exact hdata
    · rw [listOverwrite_length _ _ _ (by simp; omega)]
      simp
      omega

theorem segWrite_getD_window (data : List UInt8) (size offset : Nat) (bs : List UInt8)
    (hdata : data.length = size) (hoff : offset < size) (hlen : bs.length ≤ size)
    (t : Nat) (ht : t < bs.length) :
    (segWrite data size offset bs).getD ((offset + t) % size) 0 = bs.getD t 0 := by
  unfold segWrite
  by_cases h : bs.length ≤ size - offset
  · simp only [h, if_pos]
    rw [Nat.mod_eq_of_lt (by omega), listOverwrite_getD _ _ _ (by omega)]
    rw [if_pos (by omega)]
    congr 1
    omega
  · simp only [h, if_neg, not_false_iff]
    have hw1 : (listOverwrite data offset (bs.take (size - offset))).length = size := by
      rw [listOverwrite_length _ _ _ (by simp; omega)]; exact hdata
    by_cases ht2 : t < size - offset
    · have hmod : (offset + t) % size = offset + t := Nat.mod_eq_of_lt (by omega)
      rw [hmod, listOverwrite_getD _ _ _ (by rw [hw1]; simp; omega)]
      rw [if_neg (by simp; omega)]
      rw [listOverwrite_getD _ _ _ (by simp; omega), if_pos (by simp; omega)]
      rw [getD_take _ _ _ (by omega)]
      congr 1
      omega
    · have hmod : (offset + t) % size = t - (size - offset) := by
        rw [Nat.mod_eq_sub_mod (by omega), Nat.mod_eq_of_lt (by omega)]
        omega
      rw [hmod, listOverwrite_getD _ _ _ (by rw [hw1]; simp; omega)]
      rw [if_pos (by simp; omega)]
      rw [getD_drop]
      congr 1
      omega

theorem segWrite_getD_outside (data : List UInt8) (size offset : Nat) (bs : List UInt8)
    (hdata : data.length = size) (hoff : offset < size) (hlen : bs.length ≤ size)
    (j : Nat) (hj : j < size) (hout : ∀ t, t < bs.length → (offset + t) % size ≠ j) :
    (segWrite data size offset bs).getD j 0 = data.getD j 0 := by
  unfold segWrite
  by_cases h : bs.length ≤ size - offset
  · simp only [h, if_pos]
    rw [listOverwrite_getD _ _ _ (by omega)]
    rw [if_neg]
    rintro ⟨h1, h2⟩
    exact hout (j - offset) (by omega) (by rw [Nat.mod_eq_of_lt (by omega)]; omega)
  · simp only [h, if_neg, not_false_iff]
    have hw1 : (listOverwrite data offset (bs.take (size - offset))).length = size := by
      rw [listOverwrite_length _ _ _ (by simp; omega)]; exact hdata
    rw [listOverwrite_getD _ _ _ (by simp [hw1]; omega)]
    rw [if_neg]
    · rw [listOverwrite_getD _ _ _ (by simp; omega)]
      rw [if_neg]
      rintro ⟨h1, h2⟩
      simp only [List.length_take] at h2
      refine hout (j - offset) (by omega) ?_
      rw [Nat.mod_eq_of_lt (by omega)]
      omega
    · rintro ⟨h1, h2⟩
      simp only [List.length_drop, Nat.zero_add] at h2
      refine hout ((size - offset) + j) (by omega) ?_
      have : offset + ((size - offset) + j) = size + j := by omega
      rw [this, Nat.add_mod_left, Nat.mod_eq_of_lt hj]

/-! ### Pipe (osi_pipe.c) -/

/-- State of `struct osiPipe`. The semaphores and the reader and writer
callbacks carry no state that the claims depend on and are not modelled;
`dataDone` is the `data_done` field set by `osiPipeDataEnd` under
`CONFIG_QUEC_PROJECT_FEATURE_AUDIO`. -/
structure OsiPipe where
  running : Bool
  eof : Bool
  size : Nat
  rd : Nat
  wr : Nat
  dataDone : Bool
  data : List UInt8
deriving Repr, DecidableEq

/-- Embeds `osiPipeCreate` (the zeroed allocation of header plus buffer);
the C function returns NULL when `size = 0`. -/
def osiPipeCreate (size : Nat) : OsiPipe :=
  { running := true, eof := false, size := size, rd := 0, wr := 0,
    dataDone := false, data := List.replicate size 0 }

/-- Embeds `osiPipeSetEof` (sets the flag and releases both semaphores; the
function enters and exits the critical section once). -/
def osiPipeSetEof (p : OsiPipe) : OsiPipe := { p with eof := true }

/-- Embeds `osiPipeStop`. -/
def osiPipeStop (p : OsiPipe) : OsiPipe := { p with running := false }

/-- Embeds `osiPipeReset`. -/
def osiPipeReset (p : OsiPipe) : OsiPipe :=
  { p with rd := 0, wr := 0, running := true, eof := false }

/-- Embeds `osiPipeDataEnd` (audio configuration only). -/
def osiPipeDataEnd (p : OsiPipe) : OsiPipe := { p with dataDone := true }

/-- Result of one `osiPipeRead` call: the returned int, the bytes copied to
the caller buffer, the post state, and how many times the function ran
`osiEnterCritical` and `osiExitCritical` before returning. -/
structure PipeReadResult where
  ret : Int
  out : List UInt8
  pipe : OsiPipe
  enters : Nat
  exits : Nat
deriving Repr, DecidableEq

/-- Embeds `osiPipeRead`. `audio` is `CONFIG_QUEC_PROJECT_FEATURE_AUDIO`.
The counts include the enter and exit performed inside the nested
`osiPipeSetEof` call of the `data_done` branch; on that branch the outer
critical section is left entered, exactly as in the C return path. -/
def osiPipeRead (audio : Bool) (p : OsiPipe) (size : Nat) : PipeReadResult :=
  if size = 0 then ⟨0, [], p, 0, 0⟩
  else
    let bytes := p.wr - p.rd
    let len := min size bytes
    let rd := p.rd
    if p.running = false then ⟨-1, [], p, 1, 1⟩
    else if audio = true ∧ p.dataDone = true ∧ bytes = 0 then
      ⟨-1, [], osiPipeSetEof p, 2, 1⟩
    else if len = 0 then ⟨0, [], p, 1, 1⟩
    else
      let offset := rd % p.size
      ⟨(len : Int), segRead p.data p.size offset len, { p with rd := p.rd + len }, 1, 1⟩

/-- Embeds `osiPipeWrite` (returned int and post state; the reader callback
and the semaphore release do not change pipe state). -/
def osiPipeWrite (p : OsiPipe) (bs : List UInt8) : Int × OsiPipe :=
  if bs.length = 0 then (0, p)
  else
    let space := p.size - (p.wr - p.rd)
    let len := min bs.length space
    let wr := p.wr
    if p.running = false ∨ p.eof = true then (-1, p)
    else if len = 0 then (0, p)
    else
      let offset := wr % p.size
      ((len : Int),
        { p with data := segWrite p.data p.size offset (bs.take len), wr := p.wr + len })

/-- One pipe operation of the sequences quantified over in the invariant
claims: reads, writes, reset and the flag setters. -/
inductive PipeOp where
  | read (audio : Bool) (n : Nat)
  | write (bs : List UInt8)
  | reset
  | stop
  | setEof
  | dataEnd
deriving Repr

def pipeApply (p : OsiPipe) : PipeOp → OsiPipe
  | .read audio n => (osiPipeRead audio p n).pipe
  | .write bs => (osiPipeWrite p bs).2
  | .reset => osiPipeReset p
  | .stop => osiPipeStop p
  | .setEof => osiPipeSetEof p
  | .dataEnd => osiPipeDataEnd p

def pipeRun (p : OsiPipe) (ops : List PipeOp) : OsiPipe := ops.foldl pipeApply p

/-- Counter well-formedness of a pipe: the monotonic counters never cross
and never spread further apart than the buffer size. -/
def pipeCounterOk (p : OsiPipe) : Prop := p.rd ≤ p.wr ∧ p.wr - p.rd ≤ p.size

theorem pipeApply_counterOk (p : OsiPipe) (op : PipeOp) (h : pipeCounterOk p) :
    pipeCounterOk (pipeApply p op) ∧ (pipeApply p op).size = p.size := by
  obtain ⟨h1, h2⟩ := h
  cases op with
  | read audio n =>
      simp only [pipeApply, osiPipeRead, osiPipeSetEof]
      split_ifs <;> constructor <;> simp [pipeCounterOk] <;> omega
  | write bs =>
      simp only [pipeApply, osiPipeWrite]
      split_ifs <;> constructor <;> simp [pipeCounterOk] <;> omega
  | reset => exact ⟨⟨by simp [pipeApply, osiPipeReset], by simp [pipeApply, osiPipeReset]⟩, rfl⟩
  | stop => exact ⟨⟨h1, h2⟩, rfl⟩
  | setEof => exact ⟨⟨h1, h2⟩, rfl⟩
  | dataEnd => exact ⟨⟨h1, h2⟩, rfl⟩

theorem pipeRun_counterOk (p : OsiPipe) (ops : List PipeOp) (h : pipeCounterOk p) :
    pipeCounterOk (pipeRun p ops) ∧ (pipeRun p ops).size = p.size := by
  induction ops generalizing p with
  | nil => exact ⟨h, rfl⟩
  | cons op ops ih =>
      obtain ⟨hs, he⟩ := pipeApply_counterOk p op h
      obtain ⟨ih1, ih2⟩ := ih (pipeApply p op) hs
      exact ⟨ih1, by simp [pipeRun] at ih2 ⊢; omega⟩

/-- C3: for every pipe created with buffer size `size` and every sequence
of pipe operations (reads, writes, reset and the flag setters), the counter
predicate `0 ≤ wr - rd ≤ size` holds of the resulting state. -/
theorem pipe_counter_invariant (size : Nat) (hsize : 0 < size) (ops : List PipeOp) :
    0 ≤ ((pipeRun (osiPipeCreate size) ops).wr : Int) - ((pipeRun (osiPipeCreate size) ops).rd : Int)
    ∧ ((pipeRun (osiPipeCreate size) ops).wr : Int) - ((pipeRun (osiPipeCreate size) ops).rd : Int)
      ≤ (size : Int) := by
  obtain ⟨⟨h1, h2⟩, hsz⟩ :=
    pipeRun_counterOk (osiPipeCreate size) ops (by constructor <;> simp [osiPipeCreate])
  have hsz2 : (pipeRun (osiPipeCreate size) ops).size = size := hsz
  refine ⟨?_, ?_⟩ <;> omega

theorem pipe_counter_invariant_witness :
    0 < 8 ∧
    (0 ≤ ((pipeRun (osiPipeCreate 8) [.write [1, 2, 3], .read false 2]).wr : Int)
        - ((pipeRun (osiPipeCreate 8) [.write [1, 2, 3], .read false 2]).rd : Int)
    ∧ ((pipeRun (osiPipeCreate 8) [.write [1, 2, 3], .read false 2]).wr : Int)
        - ((pipeRun (osiPipeCreate 8) [.write [1, 2, 3], .read false 2]).rd : Int) ≤ (8 : Int)) :=
  ⟨by decide, pipe_counter_invariant 8 (by decide) [.write [1, 2, 3], .read false 2]⟩

/-- Concrete pipe for the C1 counterexample: eof set via `osiPipeSetEof`,
running still true, all deposited bytes already drained (`rd = wr = 6`). -/
def c1Pipe : OsiPipe :=
  osiPipeSetEof
    { running := true, eof := false, size := 16, rd := 6, wr := 6,
      dataDone := false, data := List.replicate 16 0 }

/-- C1 counterexample: on a pipe with eof set, running true and no buffered
bytes, a read of 1 byte returns 0, not -1 as the claim states. `osiPipeRead`
never consults the `eof` flag; only the audio `data_done` path returns -1
on an empty pipe. -/
theorem pipe_eof_empty_read_counterexample :
    ¬ ((osiPipeRead false c1Pipe 1).ret = -1) ∧ (osiPipeRead false c1Pipe 1).ret = 0 := by
  decide

/-- C1 as amended: with eof set and running true (and outside the audio
`data_done` path) a read returns `min n bytes` and advances `rd` past those
bytes, so earlier calls drain the remainder; once the pipe is empty a read
of `n > 0` bytes returns 0 rather than -1. -/
theorem pipe_eof_read_drain_then_zero (audio : Bool) (p : OsiPipe) (n : Nat)
    (hrun : p.running = true) (heof : p.eof = true)
    (hnd : ¬(audio = true ∧ p.dataDone = true)) (hn : 0 < n) :
    (osiPipeRead audio p n).ret = ((min n (p.wr - p.rd) : Nat) : Int)
    ∧ (osiPipeRead audio p n).pipe.rd = p.rd + min n (p.wr - p.rd) := by
  unfold osiPipeRead
  rw [if_neg (by omega)]
  simp only [hrun]
  rw [if_neg (by simp)]
  by_cases hb : p.wr - p.rd = 0
  · rw [if_neg (by tauto), if_pos (by omega)]
    simp [hb]
  · rw [if_neg (by tauto), if_neg (by omega)]
    simp

/-- Concrete pipe for the C1 amended-claim witness: eof set, running, four
bytes still buffered. -/
def c1DrainPipe : OsiPipe :=
  { running := true, eof := true, size := 16, rd := 6, wr := 10,
    dataDone := false, data := List.replicate 16 0 }

theorem pipe_eof_read_drain_then_zero_witness :
    (osiPipeRead false c1DrainPipe 6).ret = ((min 6 (c1DrainPipe.wr - c1DrainPipe.rd) : Nat) : Int)
    ∧ (osiPipeRead false c1DrainPipe 6).pipe.rd
      = c1DrainPipe.rd + min 6 (c1DrainPipe.wr - c1DrainPipe.rd) :=
  pipe_eof_read_drain_then_zero false c1DrainPipe 6
    (by decide) (by decide) (by decide) (by decide)

/-- Concrete pipe for the C10 failing input: audio configuration, producer
signalled completion through `osiPipeDataEnd`, pipe empty. -/
def c10Pipe : OsiPipe :=
  osiPipeDataEnd
    { running := true, eof := false, size := 16, rd := 9, wr := 9,
      dataDone := false, data := List.replicate 16 0 }

/-- C10: at the failing input (audio configuration, `data_done` set, pipe
empty, read of 1 byte) `osiPipeRead` runs `osiEnterCritical` twice (outer
entry plus the one inside the nested `osiPipeSetEof`) but `osiExitCritical`
only once: the early `return -1` skips the exit of the outer critical
section. Every other path balances at one enter and one exit. -/
theorem pipe_read_critical_leak :
    (osiPipeRead true c10Pipe 1).enters = 2 ∧ (osiPipeRead true c10Pipe 1).exits = 1 := by
  decide

/-! ### FIFO (osi_fifo.c) -/

/-- State of `struct osiFifo`: caller-supplied buffer, its size and the two
monotonic counters. -/
structure OsiFifo where
  data : List UInt8
  size : Nat
  rd : Nat
  wr : Nat
deriving Repr, DecidableEq

/-- Embeds `osiFifoBytes` of osi_fifo.h. -/
def osiFifoBytes (f : OsiFifo) : Nat := f.wr - f.rd

/-- Embeds `osiFifoSpace` of osi_fifo.h. -/
def osiFifoSpace (f : OsiFifo) : Nat := f.size - osiFifoBytes f

/-- Embeds `osiFifoInit` with a zeroed caller buffer of length `size`; the
C function returns false when `size = 0`. -/
def osiFifoInit (size : Nat) : OsiFifo :=
  { data := List.replicate size 0, size := size, rd := 0, wr := 0 }

/-- Embeds `osiFifoPut`: accept `len = min(space, size)` bytes, copy them
in one or two segments at `wr % size`, advance `wr` by `len`, return
`len`. -/
def osiFifoPut (f : OsiFifo) (bs : List UInt8) : Nat × OsiFifo :=
  if bs.length = 0 then (0, f)
  else
    (min (osiFifoSpace f) bs.length,
      { f with
          data := segWrite f.data f.size (f.wr % f.size)
            (bs.take (min (osiFifoSpace f) bs.length)),
          wr := f.wr + min (osiFifoSpace f) bs.length })

/-- Embeds `_peekInternal`: copy `min(bytes, size)` bytes out from
`rd % size` without advancing `rd`. -/
def peekInternal (f : OsiFifo) (n : Nat) : List UInt8 :=
  segRead f.data f.size (f.rd % f.size) (min (osiFifoBytes f) n)

/-- Embeds `osiFifoGet`: peek, then advance `rd` by the returned count. -/
def osiFifoGet (f : OsiFifo) (n : Nat) : List UInt8 × OsiFifo :=
  if n = 0 then ([], f)
  else (peekInternal f n, { f with rd := f.rd + (peekInternal f n).length })

/-- Logical content of the FIFO: the bytes between `rd` and `wr`, read at
their ring positions. -/
def fifoContent (f : OsiFifo) : List UInt8 :=
  (List.range (osiFifoBytes f)).map (fun i => f.data.getD ((f.rd + i) % f.size) 0)

/-- Well-formedness of a FIFO state: buffer length matches `size`, `size`
is positive (checked by `osiFifoInit`) and the counters are within the
ring discipline. -/
def fifoWf (f : OsiFifo) : Prop :=
  f.data.length = f.size ∧ 0 < f.size ∧ f.rd ≤ f.wr ∧ f.wr - f.rd ≤ f.size

theorem fifoContent_length (f : OsiFifo) : (fifoContent f).length = osiFifoBytes f := by
  simp [fifoContent]

theorem fifoContent_getD (f : OsiFifo) (i : Nat) (hi : i < osiFifoBytes f) :
    (fifoContent f).getD i 0 = f.data.getD ((f.rd + i) % f.size) 0 := by
  unfold fifoContent
  rw [List.getD_eq_getElem _ 0 (by simpa using hi)]
  simp

/-- The peek copies out exactly the first `n` bytes of the logical
content. -/
theorem peekInternal_spec (f : OsiFifo) (n : Nat) (hwf : fifoWf f) :
    peekInternal f n = (fifoContent f).take n := by
  obtain ⟨hdata, hpos, hle, hcap⟩ := hwf
  unfold peekInternal
  apply listEqOfGetD
  · rw [segRead_length _ _ _ _ hdata (Nat.mod_lt _ hpos) (by simp [osiFifoBytes]; omega)]
    simp [fifoContent_length]
    omega
  · intro i hi
    rw [segRead_length _ _ _ _ hdata (Nat.mod_lt _ hpos) (by simp [osiFifoBytes]; omega)] at hi
    rw [segRead_getD _ _ _ _ hdata (Nat.mod_lt _ hpos) (by simp [osiFifoBytes]; omega) i hi]
    rw [getD_take _ _ _ (by omega), fifoContent_getD f i (by omega), Nat.mod_add_mod]

/-- Advancing `rd` by `k` drops the first `k` bytes of the logical
content. -/
theorem fifoContent_advance (f : OsiFifo) (k : Nat) (hk : k ≤ osiFifoBytes f) :
    fifoContent { f with rd := f.rd + k } = (fifoContent f).drop k := by
  simp only [osiFifoBytes] at hk
  apply listEqOfGetD
  · rw [fifoContent_length, List.length_drop, fifoContent_length]
    simp only [osiFifoBytes]
    omega
  · intro i hi
    rw [fifoContent_length] at hi
    simp only [osiFifoBytes] at hi
    rw [fifoContent_getD _ i (by simp [osiFifoBytes]; omega), getD_drop,
      fifoContent_getD f (k + i) (by simp only [osiFifoBytes]; omega)]
    simp only
    congr 2
    omega

/-- Specification of `osiFifoGet`: it returns the first `n` content bytes
and leaves the rest, preserving well-formedness. -/
theorem osiFifoGet_spec (f : OsiFifo) (n : Nat) (hwf : fifoWf f) :
    (osiFifoGet f n).1 = (fifoContent f).take n
    ∧ fifoContent (osiFifoGet f n).2 = (fifoContent f).drop (min (osiFifoBytes f) n)
    ∧ fifoWf (osiFifoGet f n).2 := by
  have hwf2 := hwf
  obtain ⟨hdata, hpos, hle, hcap⟩ := hwf2
  unfold osiFifoGet
  by_cases hn : n = 0
  · subst hn
    rw [if_pos rfl]
    exact ⟨by simp, by simp, hwf⟩
  · rw [if_neg hn]
    have hout : peekInternal f n = (fifoContent f).take n := peekInternal_spec f n hwf
    have hlen : (peekInternal f n).length = min (osiFifoBytes f) n := by
      rw [hout]
      simp [fifoContent_length]
      omega
    refine ⟨hout, ?_, ?_⟩
    · rw [hlen, fifoContent_advance f _ (by omega)]
    · rw [hlen]
      refine ⟨hdata, hpos, by simp [osiFifoBytes]; omega, by simp [osiFifoBytes]; omega⟩

/-- Specification of `osiFifoPut`: the accepted prefix of the input is
appended to the logical content, preserving well-formedness. -/
theorem osiFifoPut_spec (f : OsiFifo) (bs : List UInt8) (hwf : fifoWf f) :
    (osiFifoPut f bs).1 = min (osiFifoSpace f) bs.length
    ∧ fifoContent (osiFifoPut f bs).2
        = fifoContent f ++ bs.take (min (osiFifoSpace f) bs.length)
    ∧ fifoWf (osiFifoPut f bs).2 := by
  have hwf2 := hwf
  obtain ⟨hdata, hpos, hle, hcap⟩ := hwf2
  unfold osiFifoPut
  by_cases h0 : bs.length = 0
  · rw [if_pos h0]
    have : bs = [] := List.length_eq_zero.mp h0
    subst this
    exact ⟨by simp, by simp, hwf⟩
  · rw [if_neg h0]
    set len := min (osiFifoSpace f) bs.length with hlendef
    have hlenle : len ≤ osiFifoSpace f := Nat.min_le_left _ _
    have hlenbs : len ≤ bs.length := Nat.min_le_right _ _
    have hspace : osiFifoSpace f = f.size - (f.wr - f.rd) := rfl
    have hbytes : osiFifoBytes f = f.wr - f.rd := rfl
    have hofflt : f.wr % f.size < f.size := Nat.mod_lt _ hpos
    have htlen : (bs.take len).length = len := by simp; omega
    have hwr : (segWrite f.data f.size (f.wr % f.size) (bs.take len)).length = f.size :=
      segWrite_length _ _ _ _ hdata hofflt (by rw [htlen]; omega)
    refine ⟨rfl, ?_, ?_⟩
    · apply listEqOfGetD
      · simp [fifoContent_length, fifoContent, osiFifoBytes]
        omega
      · intro i hi
        rw [fifoContent_length] at hi
        simp only [osiFifoBytes] at hi
        rw [fifoContent_getD _ i (by simp [osiFifoBytes]; omega)]
        rw [getD_append_cases, fifoContent_length]
        by_cases hcase : i < osiFifoBytes f
        · rw [if_pos hcase, fifoContent_getD f i hcase]
          apply segWrite_getD_outside _ _ _ _ hdata hofflt (by rw [htlen]; omega)
            _ (Nat.mod_lt _ hpos)
          intro t ht heq
          rw [htlen] at ht
          rw [Nat.mod_add_mod] at heq
          have heq2 : (f.wr + t) % f.size = (f.rd + i) % f.size := heq
          have hmodeq : Nat.ModEq f.size (f.wr + t) (f.rd + i) := heq2
          have hsub : Nat.ModEq f.size ((f.wr - f.rd) + t) i := by
            have : f.rd + ((f.wr - f.rd) + t) = f.wr + t := by omega
            have h3 : Nat.ModEq f.size (f.rd + ((f.wr - f.rd) + t)) (f.rd + i) := by
              rwa [this]
            exact Nat.ModEq.add_left_cancel' f.rd h3
          have hdvd : f.size ∣ ((f.wr - f.rd) + t) - i := by
            have := (Nat.modEq_iff_dvd' (by omega)).mp hsub.symm
            exact this
          have hlt : ((f.wr - f.rd) + t) - i < f.size := by
            simp only [osiFifoBytes, osiFifoSpace] at *
            omega
          have hgt : 0 < ((f.wr - f.rd) + t) - i := by
            simp only [osiFifoBytes] at hcase
            omega
          have := Nat.le_of_dvd hgt hdvd
          omega
        · rw [if_neg hcase]
          have hpos2 : (f.rd + i) % f.size = (f.wr % f.size + (i - osiFifoBytes f)) % f.size := by
            rw [Nat.mod_add_mod]
            congr 1
            simp only [osiFifoBytes] at *
            omega
          rw [hpos2, segWrite_getD_window _ _ _ _ hdata hofflt (by rw [htlen]; omega)
            _ (by rw [htlen]; omega)]
    · refine ⟨hwr, hpos, by simp; omega, ?_⟩
      simp only [osiFifoSpace, osiFifoBytes] at *
      omega

/-- One FIFO operation of the interleavings quantified over in the byte
stream fidelity claim. -/
inductive FifoOp where
  | put (bs : List UInt8)
  | get (n : Nat)

/-- Accumulated trace: current FIFO, concatenation of all bytes accepted by
puts, concatenation of all bytes returned by gets. -/
structure FifoTrace where
  fifo : OsiFifo
  ins : List UInt8
  outs : List UInt8

def fifoStep (s : FifoTrace) : FifoOp → FifoTrace
  | .put bs =>
      let r := osiFifoPut s.fifo bs
      { fifo := r.2, ins := s.ins ++ bs.take r.1, outs := s.outs }
  | .get n =>
      let r := osiFifoGet s.fifo n
      { fifo := r.2, ins := s.ins, outs := s.outs ++ r.1 }

def fifoRun (s : FifoTrace) (ops : List FifoOp) : FifoTrace := ops.foldl fifoStep s

/-- Trace invariant: the FIFO is well formed and the accepted input stream
is the output stream followed by the bytes still buffered. -/
def fifoTraceInv (s : FifoTrace) : Prop :=
  fifoWf s.fifo ∧ s.ins = s.outs ++ fifoContent s.fifo

theorem fifoStep_inv (s : FifoTrace) (op : FifoOp) (h : fifoTraceInv s) :
    fifoTraceInv (fifoStep s op) := by
  obtain ⟨hwf, hstream⟩ := h
  cases op with
  | put bs =>
      obtain ⟨hacc, hcont, hwf2⟩ := osiFifoPut_spec s.fifo bs hwf
      refine ⟨hwf2, ?_⟩
      simp only [fifoStep, hacc, hcont, hstream]
      simp
  | get n =>
      obtain ⟨hout, hcont, hwf2⟩ := osiFifoGet_spec s.fifo n hwf
      refine ⟨hwf2, ?_⟩
      simp only [fifoStep, hout, hcont, hstream]
      rw [List.append_assoc]
      congr 1
      have hlen : (fifoContent s.fifo).length = osiFifoBytes s.fifo := fifoContent_length _
      by_cases hcase : n ≤ osiFifoBytes s.fifo
      · rw [min_eq_right hcase, List.take_append_drop]
      · rw [min_eq_left (by omega), List.take_of_length_le (by omega),
          List.drop_of_length_le (by omega), List.append_nil]

theorem fifoRun_inv (s : FifoTrace) (ops : List FifoOp) (h : fifoTraceInv s) :
    fifoTraceInv (fifoRun s ops) := by
  induction ops generalizing s with
  | nil => exact h
  | cons op ops ih => exact ih _ (fifoStep_inv s op h)

/-- C4: for every FIFO of positive size and every interleaved sequence of
`osiFifoPut` and `osiFifoGet` calls, the concatenation of all bytes
returned by the gets is a prefix of the concatenation of all bytes
accepted by the puts. -/
theorem fifo_stream_fidelity (size : Nat) (hsize : 0 < size) (ops : List FifoOp) :
    ∃ rest,
      (fifoRun ⟨osiFifoInit size, [], []⟩ ops).ins
        = (fifoRun ⟨osiFifoInit size, [], []⟩ ops).outs ++ rest := by
  have hinit : fifoTraceInv ⟨osiFifoInit size, [], []⟩ := by
    refine ⟨⟨by simp [osiFifoInit], by simpa [osiFifoInit], by simp [osiFifoInit],
      by simp [osiFifoInit]⟩, ?_⟩
    simp [fifoContent, osiFifoInit, osiFifoBytes]
  obtain ⟨hwf, hstream⟩ := fifoRun_inv _ ops hinit
  exact ⟨_, hstream⟩

theorem fifo_stream_fidelity_witness :
    0 < 4 ∧ ∃ rest,
      (fifoRun ⟨osiFifoInit 4, [], []⟩ [.put [1, 2, 3], .get 2]).ins
        = (fifoRun ⟨osiFifoInit 4, [], []⟩ [.put [1, 2, 3], .get 2]).outs ++ rest :=
  ⟨by decide, fifo_stream_fidelity 4 (by decide) [.put [1, 2, 3], .get 2]⟩

/-! ### Work queues (osi_work.c)

Work items and work queues are identified by ids. The modelled state keeps
the `wq` back pointer of every work item, the `work_list` of every queue
and, for the enqueue claims, the release count of every `work_sema`.
`TAILQ_REMOVE` removes the unique list node of the item, modelled by
`List.erase`. -/

structure WorkState where
  wq : Nat → Option Nat
  list : Nat → List Nat
  sema : Nat → Nat

/-- Boot state: no work item is on any list and every `osiWorkCreate`
result starts with `work->wq = NULL`. -/
def workInit : WorkState :=
  { wq := fun _ => none, list := fun _ => [], sema := fun _ => 0 }

/-- The detach step shared by `osiWorkEnqueue` and `osiWorkEnqueueLast`:
when the item is on some list, `TAILQ_REMOVE` it (the back pointer is
rewritten by the caller). -/
def workDetachList (w : Nat) (s : WorkState) : WorkState :=
  match s.wq w with
  | some q0 => { s with list := fun x => if x = q0 then (s.list q0).erase w else s.list x }
  | none => s

/-- The attach step of the enqueue functions: `TAILQ_INSERT_TAIL`, set
`work->wq`, release the work semaphore. -/
def workAttach (w q : Nat) (s : WorkState) : WorkState :=
  { s with
      list := fun x => if x = q then s.list q ++ [w] else s.list x,
      wq := fun x => if x = w then some q else s.wq x,
      sema := fun x => if x = q then s.sema q + 1 else s.sema x }

/-- Embeds `osiWorkEnqueue`: when the item is already on the target queue
the body is skipped entirely; otherwise detach, insert at tail, set the
back pointer and release `work_sema`. Returns true in both cases. -/
def osiWorkEnqueue (w q : Nat) (s : WorkState) : Bool × WorkState :=
  if s.wq w ≠ some q then (true, workAttach w q (workDetachList w s))
  else (true, s)

/-- Embeds `osiWorkEnqueueLast`: unconditional detach, insert at tail, set
the back pointer and release `work_sema`. -/
def osiWorkEnqueueLast (w q : Nat) (s : WorkState) : Bool × WorkState :=
  (true, workAttach w q (workDetachList w s))

/-- Embeds `osiWorkCancel`: detach when enqueued and clear the back
pointer. -/
def osiWorkCancel (w : Nat) (s : WorkState) : WorkState :=
  match s.wq w with
  | some q0 =>
      { s with
          list := fun x => if x = q0 then (s.list q0).erase w else s.list x,
          wq := fun x => if x = w then none else s.wq x }
  | none => s

/-- Embeds `osiWorkDelete`: the same detach as cancel, then `free(work)`
(the freed item is on no list and its back pointer was cleared). -/
def osiWorkDelete (w : Nat) (s : WorkState) : WorkState := osiWorkCancel w s

/-- Embeds one dequeue step of the `_wqThreadEntry` inner loop (also the
shutdown drain loop): take the list head, `TAILQ_REMOVE` it and clear its
back pointer; with an empty list the thread just waits. -/
def wqDequeue (q : Nat) (s : WorkState) : WorkState :=
  match s.list q with
  | [] => s
  | w :: rest =>
      { s with
          list := fun x => if x = q then rest else s.list x,
          wq := fun x => if x = w then none else s.wq x }

inductive WorkOp where
  | enqueue (w q : Nat)
  | enqueueLast (w q : Nat)
  | cancel (w : Nat)
  | delete (w : Nat)
  | dequeue (q : Nat)

def workApply (s : WorkState) : WorkOp → WorkState
  | .enqueue w q => (osiWorkEnqueue w q s).2
  | .enqueueLast w q => (osiWorkEnqueueLast w q s).2
  | .cancel w => osiWorkCancel w s
  | .delete w => osiWorkDelete w s
  | .dequeue q => wqDequeue q s

def workRun (s : WorkState) (ops : List WorkOp) : WorkState := ops.foldl workApply s

/-- Invariant of the work subsystem: the back pointer of an item names a
queue exactly when the item is a member of that list of that queue, and
every list is duplicate free (each item has one list node). -/
def workInv (s : WorkState) : Prop :=
  (∀ w q, s.wq w = some q ↔ w ∈ s.list q) ∧ (∀ q, (s.list q).Nodup)

theorem workDetachList_wq (w x : Nat) (s : WorkState) :
    (workDetachList w s).wq x = s.wq x := by
  unfold workDetachList
  cases s.wq w <;> rfl

theorem workDetachList_sizes (w x : Nat) (s : WorkState) :
    (workDetachList w s).list x =
      match s.wq w with
      | some q0 => if x = q0 then (s.list q0).erase w else s.list x
      | none => s.list x := by
  unfold workDetachList
  cases s.wq w <;> rfl

theorem workAttach_wq (w q x : Nat) (s : WorkState) :
    (workAttach w q s).wq x = if x = w then some q else s.wq x := rfl

theorem workAttach_list (w q x : Nat) (s : WorkState) :
    (workAttach w q s).list x = if x = q then s.list q ++ [w] else s.list x := rfl

theorem workDetachList_nodup (w x : Nat) (s : WorkState) (hnd : ∀ y, (s.list y).Nodup) :
    ((workDetachList w s).list x).Nodup := by
  rw [workDetachList_sizes]
  cases s.wq w with
  | none => exact hnd x
  | some q0 =>
      show (if x = q0 then (s.list q0).erase w else s.list x).Nodup
      by_cases hx : x = q0
      · rw [if_pos hx]
        exact (hnd q0).erase w
      · rw [if_neg hx]
        exact hnd x

theorem workDetachList_not_mem (w x : Nat) (s : WorkState) (h : workInv s) :
    w ∉ (workDetachList w s).list x := by
  obtain ⟨hmem, hnd⟩ := h
  rw [workDetachList_sizes]
  cases hw : s.wq w with
  | none =>
      intro hmem2
      have := (hmem w x).mpr hmem2
      rw [hw] at this
      exact Option.noConfusion this
  | some q0 =>
      show w ∉ (if x = q0 then (s.list q0).erase w else s.list x)
      by_cases hx : x = q0
      · rw [if_pos hx]
        exact (hnd q0).not_mem_erase
      · rw [if_neg hx]
        intro hmem2
        have := (hmem w x).mpr hmem2
        rw [hw] at this
        exact hx (Option.some.inj this).symm

theorem workDetachList_mem_other (w w2 x : Nat) (s : WorkState) (h : workInv s)
    (hne : w2 ≠ w) : (w2 ∈ (workDetachList w s).list x ↔ w2 ∈ s.list x) := by
  obtain ⟨hmem, hnd⟩ := h
  rw [workDetachList_sizes]
  cases s.wq w with
  | none => rfl
  | some q0 =>
      show w2 ∈ (if x = q0 then (s.list q0).erase w else s.list x) ↔ w2 ∈ s.list x
      by_cases hx : x = q0
      · rw [if_pos hx, hx, (hnd q0).mem_erase_iff]
        tauto
      · rw [if_neg hx]

theorem workAttach_detach_inv (w q : Nat) (s : WorkState) (h : workInv s) :
    workInv (workAttach w q (workDetachList w s)) := by
  have hinv := h
  obtain ⟨hmem, hnd⟩ := hinv
  constructor
  · intro w2 q2
    rw [workAttach_wq, workAttach_list]
    by_cases hww : w2 = w
    · subst hww
      rw [if_pos rfl]
      by_cases hq : q2 = q
      · subst hq
        rw [if_pos rfl]
        simp
      · rw [if_neg hq]
        constructor
        · intro hx
          exact absurd (Option.some.inj hx).symm hq
        · intro hx
          exact absurd hx (workDetachList_not_mem w2 q2 s h)
    · rw [if_neg hww, workDetachList_wq]
      by_cases hq : q2 = q
      · subst hq
        rw [if_pos rfl, List.mem_append, List.mem_singleton]
        rw [workDetachList_mem_other w w2 q2 s h hww]
        constructor
        · intro hx
          exact Or.inl ((hmem w2 q2).mp hx)
        · rintro (hx | hx)
          · exact (hmem w2 q2).mpr hx
          · exact absurd hx hww
      · rw [if_neg hq, workDetachList_mem_other w w2 q2 s h hww]
        exact hmem w2 q2
  · intro x
    rw [workAttach_list]
    by_cases hx : x = q
    · rw [if_pos hx]
      rw [List.nodup_append]
      refine ⟨workDetachList_nodup w q s hnd, List.nodup_singleton w, ?_⟩
      intro a ha hb
      rw [List.mem_singleton] at hb
      subst hb
      exact absurd ha (workDetachList_not_mem a q s h)
    · rw [if_neg hx]
      exact workDetachList_nodup w x s hnd

theorem osiWorkCancel_inv (w : Nat) (s : WorkState) (h : workInv s) :
    workInv (osiWorkCancel w s) := by
  obtain ⟨hmem, hnd⟩ := h
  unfold osiWorkCancel
  cases hw : s.wq w with
  | none => exact ⟨hmem, hnd⟩
  | some q0 =>
      constructor
      · intro w2 q2
        show (if w2 = w then none else s.wq w2) = some q2 ↔
          w2 ∈ (if q2 = q0 then (s.list q0).erase w else s.list q2)
        by_cases hww : w2 = w
        · subst hww
          rw [if_pos rfl]
          constructor
          · intro hx
            exact Option.noConfusion hx
          · intro hx
            by_cases hq : q2 = q0
            · rw [if_pos hq] at hx
              exact absurd hx (hnd q0).not_mem_erase
            · rw [if_neg hq] at hx
              have := (hmem w2 q2).mpr hx
              rw [hw] at this
              exact absurd (Option.some.inj this).symm hq
        · rw [if_neg hww]
          by_cases hq : q2 = q0
          · subst hq
            rw [if_pos rfl, (hnd q2).mem_erase_iff]
            have := hmem w2 q2
            tauto
          · rw [if_neg hq]
            exact hmem w2 q2
      · intro x
        show (if x = q0 then (s.list q0).erase w else s.list x).Nodup
        by_cases hx : x = q0
        · rw [if_pos hx]
          exact (hnd q0).erase w
        · rw [if_neg hx]
          exact hnd x

theorem wqDequeue_inv (q : Nat) (s : WorkState) (h : workInv s) :
    workInv (wqDequeue q s) := by
  obtain ⟨hmem, hnd⟩ := h
  unfold wqDequeue
  cases hl : s.list q with
  | nil => exact ⟨hmem, hnd⟩
  | cons w rest =>
      have hwq : s.wq w = some q := (hmem w q).mpr (by rw [hl]; simp)
      have hndq := hnd q
      rw [hl, List.nodup_cons] at hndq
      obtain ⟨hwrest, hrest_nd⟩ := hndq
      constructor
      · intro w2 q2
        show (if w2 = w then none else s.wq w2) = some q2 ↔
          w2 ∈ (if q2 = q then rest else s.list q2)
        by_cases hww : w2 = w
        · subst hww
          rw [if_pos rfl]
          constructor
          · intro hx
            exact Option.noConfusion hx
          · intro hx
            by_cases hq : q2 = q
            · rw [if_pos hq] at hx
              exact absurd hx hwrest
            · rw [if_neg hq] at hx
              have := (hmem w2 q2).mpr hx
              rw [hwq] at this
              exact absurd (Option.some.inj this).symm hq
        · rw [if_neg hww]
          by_cases hq : q2 = q
          · subst hq
            rw [if_pos rfl, hmem w2 q2, hl, List.mem_cons]
            constructor
            · rintro (hx | hx)
              · exact absurd hx hww
              · exact hx
            · exact Or.inr
          · rw [if_neg hq]
            exact hmem w2 q2
      · intro x
        show (if x = q then rest else s.list x).Nodup
        by_cases hx : x = q
        · rw [if_pos hx]
          exact hrest_nd
        · rw [if_neg hx]
          exact hnd x

theorem workApply_inv (s : WorkState) (op : WorkOp) (h : workInv s) :
    workInv (workApply s op) := by
  cases op with
  | enqueue w q =>
      show workInv (osiWorkEnqueue w q s).2
      unfold osiWorkEnqueue
      by_cases hc : s.wq w ≠ some q
      · rw [if_pos hc]
        exact workAttach_detach_inv w q s h
      · rw [if_neg hc]
        exact h
  | enqueueLast w q => exact workAttach_detach_inv w q s h
  | cancel w => exact osiWorkCancel_inv w s h
  | delete w => exact osiWorkCancel_inv w s h
  | dequeue q => exact wqDequeue_inv q s h

theorem workRun_inv (s : WorkState) (ops : List WorkOp) (h : workInv s) :
    workInv (workRun s ops) := by
  induction ops generalizing s with
  | nil => exact h
  | cons op ops ih => exact ih _ (workApply_inv s op h)

/-- C5: in every state reachable from boot by enqueue, enqueue-last,
cancel, delete and worker dequeue steps, a work item points at a queue
exactly when it is an element of the list of that queue, and its pointer
is `none` exactly when it is on no list. -/
theorem work_membership_invariant (ops : List WorkOp) (w q : Nat) :
    ((workRun workInit ops).wq w = some q ↔ w ∈ (workRun workInit ops).list q)
    ∧ ((workRun workInit ops).wq w = none ↔ ∀ q', w ∉ (workRun workInit ops).list q') := by
  have hinv : workInv (workRun workInit ops) := by
    apply workRun_inv
    constructor
    · intro w' q'
      simp [workInit]
    · intro q'
      simp [workInit]
  obtain ⟨hmem, _⟩ := hinv
  refine ⟨hmem w q, ?_⟩
  constructor
  · intro hn q' hmem2
    have := (hmem w q').mpr hmem2
    rw [hn] at this
    exact Option.noConfusion this
  · intro hall
    cases hw : (workRun workInit ops).wq w with
    | none => rfl
    | some q' => exact absurd ((hmem w q').mp hw) (hall q')

/-- Concrete state for the C6 counterexample: work items 0 and 1 are both
enqueued on queue 0, item 0 at the head (reachable from boot by enqueuing
0 then 1). -/
def c6State : WorkState :=
  (osiWorkEnqueue 1 0 (osiWorkEnqueue 0 0 workInit).2).2

/-- C6 counterexample: enqueuing item 0 on queue 0 while it is already
enqueued there does not move it to the tail and does not release the work
semaphore; the whole body is skipped (the claim asserts the push, set and
release also happen in this case). The call still returns true. -/
theorem work_enqueue_same_queue_counterexample :
    ¬ ((osiWorkEnqueue 0 0 c6State).2.list 0 = [1, 0]
        ∧ (osiWorkEnqueue 0 0 c6State).2.sema 0 = c6State.sema 0 + 1)
    ∧ (osiWorkEnqueue 0 0 c6State).2.list 0 = [0, 1]
    ∧ (osiWorkEnqueue 0 0 c6State).2.sema 0 = c6State.sema 0
    ∧ (osiWorkEnqueue 0 0 c6State).1 = true := by
  refine ⟨?_, by decide, by decide, rfl⟩
  intro hcontra
  have : ([0, 1] : List Nat) = [1, 0] := by
    have h1 : (osiWorkEnqueue 0 0 c6State).2.list 0 = [0, 1] := by decide
    rw [← h1]
    exact hcontra.1
  simp at this

/-- C6 as amended: `osiWorkEnqueue w wq` returns true in all cases; when
`w.wq` differs from `wq` it detaches `w` from any queue it is on, pushes
`w` to the tail of the list of `wq`, sets `w.wq = wq` and releases the
work semaphore of `wq`; when `w` is already enqueued on `wq` itself the
state is left completely unchanged (`osiWorkEnqueueLast` is the variant
that re-pushes unconditionally). -/
theorem work_enqueue_amended (w q : Nat) (s : WorkState) :
    (osiWorkEnqueue w q s).1 = true
    ∧ (s.wq w ≠ some q →
        (osiWorkEnqueue w q s).2.list q = (workDetachList w s).list q ++ [w]
        ∧ (osiWorkEnqueue w q s).2.wq w = some q
        ∧ (osiWorkEnqueue w q s).2.sema q = s.sema q + 1)
    ∧ (s.wq w = some q → (osiWorkEnqueue w q s).2 = s)
    ∧ (osiWorkEnqueueLast w q s).2.list q = (workDetachList w s).list q ++ [w]
    ∧ (osiWorkEnqueueLast w q s).2.wq w = some q
    ∧ (osiWorkEnqueueLast w q s).2.sema q = s.sema q + 1 := by
  have hsema : ∀ t : WorkState, (workAttach w q t).sema q = t.sema q + 1 := fun t => by
    show (if q = q then t.sema q + 1 else t.sema q) = t.sema q + 1
    rw [if_pos rfl]
  have hdsema : (workDetachList w s).sema = s.sema := by
    unfold workDetachList
    cases s.wq w <;> rfl
  have hlist : ∀ t : WorkState, (workAttach w q t).list q = t.list q ++ [w] := fun t => by
    rw [workAttach_list, if_pos rfl]
  have hwq : ∀ t : WorkState, (workAttach w q t).wq w = some q := fun t => by
    rw [workAttach_wq, if_pos rfl]
  refine ⟨?_, ?_, ?_, ?_, ?_, ?_⟩
  · unfold osiWorkEnqueue
    split_ifs <;> rfl
  · intro hne
    unfold osiWorkEnqueue
    rw [if_pos hne]
    exact ⟨hlist _, hwq _, by rw [hsema, hdsema]⟩
  · intro heq
    unfold osiWorkEnqueue
    rw [if_neg (by simp [heq])]
  · exact hlist _
  · exact hwq _
  · show (workAttach w q (workDetachList w s)).sema q = s.sema q + 1
    rw [hsema, hdsema]

theorem work_enqueue_amended_witness :
    (osiWorkEnqueue 2 1 c6State).1 = true
    ∧ ((osiWorkEnqueue 2 1 c6State).2.list 1 = (workDetachList 2 c6State).list 1 ++ [2]
        ∧ (osiWorkEnqueue 2 1 c6State).2.wq 2 = some 1
        ∧ (osiWorkEnqueue 2 1 c6State).2.sema 1 = c6State.sema 1 + 1) :=
  ⟨(work_enqueue_amended 2 1 c6State).1,
    (work_enqueue_amended 2 1 c6State).2.1 (by decide)⟩

/-! ### Notifications (osi_work.c and the Notify branch of osiEventTryWait)

A single notification is modelled by its `status` field, a flag recording
whether it has been freed, the number of `OSI_EVENT_ID_NOTIFY` events for
it currently sitting in the mailbox of its target thread, and the number
of callback invocations performed so far. -/

inductive NotifyStatus where
  | idle
  | queuedActive
  | queuedCancel
  | queuedDelete
deriving DecidableEq, Repr

structure NotifyState where
  status : NotifyStatus
  freed : Bool
  queued : Nat
  cbCount : Nat
deriving DecidableEq, Repr

/-- Embeds `osiNotifyCreate`: status starts idle, no event queued. -/
def notifyInit : NotifyState :=
  { status := .idle, freed := false, queued := 0, cbCount := 0 }

/-- Embeds `osiNotifyTrigger`: from idle, mark queued-active and send one
Notify event; while already queued and not marked for delete, only rewrite
the status (re-arm without re-enqueue). A freed notification must not be
used; modelled as inert. -/
def osiNotifyTrigger (s : NotifyState) : NotifyState :=
  if s.freed = true then s
  else if s.status = .idle then { s with status := .queuedActive, queued := s.queued + 1 }
  else if s.status ≠ .queuedDelete then { s with status := .queuedActive }
  else s

/-- Embeds `osiNotifyCancel`. -/
def osiNotifyCancel (s : NotifyState) : NotifyState :=
  if s.freed = true then s
  else if s.status = .queuedActive then { s with status := .queuedCancel }
  else s

/-- Embeds `osiNotifyDelete`: free at once when idle, else leave freeing to
the dispatcher. -/
def osiNotifyDelete (s : NotifyState) : NotifyState :=
  if s.freed = true then s
  else if s.status = .idle then { s with freed := true }
  else { s with status := .queuedDelete }

/-- Embeds the `OSI_EVENT_ID_NOTIFY` branch of `osiEventTryWait`: receive
one queued Notify event (no-op when none is pending), then under the
critical section free on queued-delete, invoke the callback and reset to
idle on queued-active, and only reset to idle otherwise. -/
def notifyDispatch (s : NotifyState) : NotifyState :=
  if s.queued = 0 then s
  else if s.status = .queuedDelete then { s with queued := s.queued - 1, freed := true }
  else if s.status = .queuedActive then
    { s with queued := s.queued - 1, status := .idle, cbCount := s.cbCount + 1 }
  else { s with queued := s.queued - 1, status := .idle }

inductive NotifyOp where
  | trigger
  | cancel
  | delete
  | dispatch

def notifyApply (s : NotifyState) : NotifyOp → NotifyState
  | .trigger => osiNotifyTrigger s
  | .cancel => osiNotifyCancel s
  | .delete => osiNotifyDelete s
  | .dispatch => notifyDispatch s

def notifyRun (s : NotifyState) (ops : List NotifyOp) : NotifyState := ops.foldl notifyApply s

/-- Invariant carried by every reachable notification state: exactly one
event is in flight while the status is queued (any flavour) and the
notification is live, and none otherwise. -/
def notifyInv (s : NotifyState) : Prop :=
  ((s.status = .idle ∨ s.freed = true) → s.queued = 0)
  ∧ ((s.status ≠ .idle ∧ s.freed = false) → s.queued = 1)

theorem notifyApply_inv (s : NotifyState) (op : NotifyOp) (h : notifyInv s) :
    notifyInv (notifyApply s op) := by
  obtain ⟨h0, h1⟩ := h
  cases op with
  | trigger =>
      show notifyInv (osiNotifyTrigger s)
      unfold osiNotifyTrigger
      split_ifs with hf hs hd
      · exact ⟨h0, h1⟩
      · refine ⟨?_, ?_⟩
        · rintro (hx | hx) <;> simp_all
        · intro hx
          show s.queued + 1 = 1
          have := h0 (Or.inl hs)
          omega
      · refine ⟨?_, ?_⟩
        · rintro (hx | hx) <;> simp_all
        · intro hx
          exact h1 ⟨hs, by simpa using hf⟩
      · exact ⟨h0, h1⟩
  | cancel =>
      show notifyInv (osiNotifyCancel s)
      unfold osiNotifyCancel
      split_ifs with hf hs
      · exact ⟨h0, h1⟩
      · refine ⟨?_, ?_⟩
        · rintro (hx | hx) <;> simp_all
        · intro hx
          refine h1 ⟨?_, by simpa using hf⟩
          rw [hs]
          simp
      · exact ⟨h0, h1⟩
  | delete =>
      show notifyInv (osiNotifyDelete s)
      unfold osiNotifyDelete
      split_ifs with hf hs
      · exact ⟨h0, h1⟩
      · refine ⟨?_, ?_⟩
        · intro hx
          exact h0 (Or.inl hs)
        · rintro ⟨hx1, hx2⟩
          simp at hx2
      · refine ⟨?_, ?_⟩
        · rintro (hx | hx) <;> simp_all
        · intro hx
          exact h1 ⟨hs, by simpa using hf⟩
  | dispatch =>
      show notifyInv (notifyDispatch s)
      unfold notifyDispatch
      split_ifs with hq hd ha
      · exact ⟨h0, h1⟩
      · refine ⟨?_, ?_⟩
        · intro hx
          show s.queued - 1 = 0
          have hni : s.status ≠ .idle := by rw [hd]; simp
          by_cases hf : s.freed = true
          · have := h0 (Or.inr hf)
            omega
          · have := h1 ⟨hni, by simpa using hf⟩
            omega
        · rintro ⟨hx1, hx2⟩
          simp at hx2
      · refine ⟨?_, ?_⟩
        · intro hx
          show s.queued - 1 = 0
          by_cases hf : s.freed = true
          · have := h0 (Or.inr hf)
            omega
          · have hni : s.status ≠ .idle := by rw [ha]; simp
            have := h1 ⟨hni, by simpa using hf⟩
            omega
        · rintro ⟨hx1, hx2⟩
          simp at hx1
      · refine ⟨?_, ?_⟩
        · intro hx
          show s.queued - 1 = 0
          by_cases hf : s.freed = true
          · have := h0 (Or.inr hf)
            omega
          · by_cases hs : s.status = .idle
            · have := h0 (Or.inl hs)
              omega
            · have := h1 ⟨hs, by simpa using hf⟩
              omega
        · rintro ⟨hx1, hx2⟩
          simp at hx1

theorem notifyRun_inv (s : NotifyState) (ops : List NotifyOp) (h : notifyInv s) :
    notifyInv (notifyRun s ops) := by
  induction ops generalizing s with
  | nil => exact h
  | cons op ops ih => exact ih _ (notifyApply_inv s op h)

/-- Iterated triggers, as in the coalescing scenario. -/
def notifyTriggers : Nat → NotifyState → NotifyState
  | 0, s => s
  | n + 1, s => osiNotifyTrigger (notifyTriggers n s)

theorem notifyTriggers_init (n : Nat) (hn : 1 ≤ n) :
    notifyTriggers n notifyInit
      = { status := .queuedActive, freed := false, queued := 1, cbCount := 0 } := by
  induction n with
  | zero => omega
  | succ m ih =>
      by_cases hm : 1 ≤ m
      · show osiNotifyTrigger (notifyTriggers m notifyInit) = _
        rw [ih hm]
        decide
      · have : m = 0 := by omega
        subst this
        decide

/-- C9: every state reachable from a fresh notification by triggers,
cancels, deletes and dispatcher steps holds at most one queued Notify
event, and in the coalescing scenario `n >= 1` triggers followed by one
dispatcher step invoke the callback exactly once, while one further
trigger and dispatch invoke it exactly once more. -/
theorem notify_single_event (ops : List NotifyOp) (n : Nat) (hn : 1 ≤ n) :
    (notifyRun notifyInit ops).queued ≤ 1
    ∧ (notifyDispatch (notifyTriggers n notifyInit)).cbCount = 1
    ∧ (notifyDispatch (osiNotifyTrigger (notifyDispatch (notifyTriggers n notifyInit)))).cbCount
      = 2 := by
  refine ⟨?_, ?_, ?_⟩
  · have hinv := notifyRun_inv notifyInit ops (by constructor <;> simp [notifyInit])
    obtain ⟨h0, h1⟩ := hinv
    by_cases hf : (notifyRun notifyInit ops).freed = true
    · have := h0 (Or.inr hf)
      omega
    · by_cases hs : (notifyRun notifyInit ops).status = .idle
      · have := h0 (Or.inl hs)
        omega
      · have := h1 ⟨hs, by simpa using hf⟩
        omega
  · rw [notifyTriggers_init n hn]
    decide
  · rw [notifyTriggers_init n hn]
    decide

theorem notify_single_event_witness :
    (notifyRun notifyInit [.trigger, .trigger, .dispatch]).queued ≤ 1
    ∧ (notifyDispatch (notifyTriggers 10 notifyInit)).cbCount = 1
    ∧ (notifyDispatch (osiNotifyTrigger (notifyDispatch (notifyTriggers 10 notifyInit)))).cbCount
      = 2 :=
  notify_single_event [.trigger, .trigger, .dispatch] 10 (by decide)

/-! ### SPI flash HAL

Embeds the flash descriptor `halSpiFlash_t`, the GD write-protect offset
tables, `prvFindFromWpOffset`, `halSpiFlashWpRange`, the security register
operations and the `prvFlashPropsByMid` property lookup. The `wp` bit
patterns of the tables (GD_WP32M_ALL and friends) live in the missing
header `hal_spi_flash_defs.h`; they are not consumed by any embedded
function (`halSpiFlashWpRange` reads only the offsets), so they are
modelled as 0 here. -/

inductive HalSpiFlashType where
  | gd
  | winbond
  | xmca
  | xmcb
  | xmcc
  | xtx
  | puya
deriving DecidableEq, Repr

inductive HalSpiFlashWpType where
  | none
  | gd
  | xmca
deriving DecidableEq, Repr

structure HalSpiFlash where
  hwp : Nat
  mid : Nat
  capacity : Nat
  sreg_block_size : Nat
  type : HalSpiFlashType
  wp_type : HalSpiFlashWpType
  uid_type : Nat
  cpid_type : Nat
  sreg_min_num : Nat
  sreg_max_num : Nat
  volatile_sr_en : Bool
  suspend_en : Bool
  sfdp_en : Bool
  write_sr12 : Bool
  has_sr2 : Bool
  has_sus1 : Bool
  has_sus2 : Bool
deriving DecidableEq, Repr

structure WpMapEntry where
  offset : Nat
  wp : Nat
deriving DecidableEq, Repr

/-- Embeds `osiUintRange_t` as used by `halSpiFlashWpRange`. -/
structure OsiUintRange where
  minval : Nat
  maxval : Nat
deriving DecidableEq, Repr

/-- Table for GD 1MB (gGD8MWpMap), offset unit in 4K sectors
(SECTOR_COUNT_1M = 256). -/
def gGD8MWpMap : List WpMapEntry :=
  [⟨256, 0⟩, ⟨240, 0⟩, ⟨224, 0⟩, ⟨192, 0⟩, ⟨128, 0⟩, ⟨64, 0⟩, ⟨32, 0⟩, ⟨16, 0⟩,
   ⟨8, 0⟩, ⟨4, 0⟩, ⟨2, 0⟩, ⟨1, 0⟩, ⟨0, 0⟩]

/-- Table for GD 2MB (gGD16MWpMap), SECTOR_COUNT_2M = 512. -/
def gGD16MWpMap : List WpMapEntry :=
  [⟨512, 0⟩, ⟨496, 0⟩, ⟨480, 0⟩, ⟨448, 0⟩, ⟨384, 0⟩, ⟨256, 0⟩, ⟨128, 0⟩, ⟨64, 0⟩,
   ⟨32, 0⟩, ⟨16, 0⟩, ⟨8, 0⟩, ⟨4, 0⟩, ⟨2, 0⟩, ⟨1, 0⟩, ⟨0, 0⟩]

/-- Table for GD 4MB (gGD32MWpMap), SECTOR_COUNT_4M = 1024. -/
def gGD32MWpMap : List WpMapEntry :=
  [⟨1024, 0⟩, ⟨1008, 0⟩, ⟨992, 0⟩, ⟨960, 0⟩, ⟨896, 0⟩, ⟨768, 0⟩, ⟨512, 0⟩, ⟨256, 0⟩,
   ⟨128, 0⟩, ⟨64, 0⟩, ⟨32, 0⟩, ⟨16, 0⟩, ⟨8, 0⟩, ⟨4, 0⟩, ⟨2, 0⟩, ⟨1, 0⟩, ⟨0, 0⟩]

/-- Table for GD 8MB (gGD64MWpMap), SECTOR_COUNT_8M = 2048. -/
def gGD64MWpMap : List WpMapEntry :=
  [⟨2048, 0⟩, ⟨2016, 0⟩, ⟨1984, 0⟩, ⟨1920, 0⟩, ⟨1792, 0⟩, ⟨1536, 0⟩, ⟨1024, 0⟩, ⟨512, 0⟩,
   ⟨256, 0⟩, ⟨128, 0⟩, ⟨64, 0⟩, ⟨32, 0⟩, ⟨8, 0⟩, ⟨4, 0⟩, ⟨2, 0⟩, ⟨1, 0⟩, ⟨0, 0⟩]

/-- Table for GD 16MB (gGD128MWpMap), SECTOR_COUNT_16M = 4096. -/
def gGD128MWpMap : List WpMapEntry :=
  [⟨4096, 0⟩, ⟨4032, 0⟩, ⟨3968, 0⟩, ⟨3840, 0⟩, ⟨3584, 0⟩, ⟨3072, 0⟩, ⟨2048, 0⟩, ⟨1024, 0⟩,
   ⟨512, 0⟩, ⟨256, 0⟩, ⟨128, 0⟩, ⟨64, 0⟩, ⟨8, 0⟩, ⟨4, 0⟩, ⟨2, 0⟩, ⟨1, 0⟩, ⟨0, 0⟩]

/-- Table for XMCA (gXmcaWpMap), offset unit in 1/128 of the capacity. -/
def gXmcaWpMap : List WpMapEntry :=
  [⟨128, 0⟩, ⟨127, 0⟩, ⟨126, 0⟩, ⟨124, 0⟩, ⟨120, 0⟩, ⟨112, 0⟩, ⟨96, 0⟩, ⟨64, 0⟩,
   ⟨32, 0⟩, ⟨16, 0⟩, ⟨8, 0⟩, ⟨4, 0⟩, ⟨2, 0⟩, ⟨1, 0⟩, ⟨0, 0⟩]

/-- Embeds `prvFindFromWpOffset`: scan the descending table for the first
entry whose threshold is at or below the query and return that threshold.
The C loop has no exit for an exhausted table because every table ends in
a 0 entry; the empty-list result 0 is the value that terminal entry always
yields. -/
def prvFindFromWpOffset : List WpMapEntry → Nat → Nat
  | [], _ => 0
  | e :: rest, off => if off ≥ e.offset then e.offset else prvFindFromWpOffset rest off

theorem prvFindFromWpOffset_cons (e : WpMapEntry) (rest : List WpMapEntry) (off : Nat) :
    prvFindFromWpOffset (e :: rest) off
      = if off ≥ e.offset then e.offset else prvFindFromWpOffset rest off := rfl

/-- Modelled from the spec: the macro `MID_CAPBITS` of the missing header
`hal_spi_flash_defs.h`. Per the design document, `capacity` is overridden
to `1 << (capacity bits of the mid)`, where the mid packs the three RDID
bytes low byte first (manufacturer at the low byte) and the capacity bits
are the third RDID byte, e.g. RDID C8 40 18 gives capacity bits 0x18 and
capacity 16 MiB; so the capacity bits are `(mid >> 16) & 0xff`. -/
def MID_CAPBITS (mid : Nat) : Nat := (mid >>> 16) % 256

/-- Embeds `halSpiFlashWpRange`: the protected window that the status
register can actually express for a protect-below request at `offset`,
always starting at 0 and ending at the reverse table lookup (GD tables in
4K sectors, XMCA in 1/128 capacity units). -/
def halSpiFlashWpRange (d : HalSpiFlash) (offset size : Nat) : OsiUintRange :=
  let range : OsiUintRange := ⟨0, 0⟩
  if d.wp_type = .gd then
    let scount := offset / 4096
    if d.capacity = 1 <<< 20 then
      { range with maxval := prvFindFromWpOffset gGD8MWpMap scount * 4096 }
    else if d.capacity = 2 <<< 20 then
      { range with maxval := prvFindFromWpOffset gGD16MWpMap scount * 4096 }
    else if d.capacity = 4 <<< 20 then
      { range with maxval := prvFindFromWpOffset gGD32MWpMap scount * 4096 }
    else if d.capacity = 8 <<< 20 then
      { range with maxval := prvFindFromWpOffset gGD64MWpMap scount * 4096 }
    else if d.capacity = 16 <<< 20 then
      { range with maxval := prvFindFromWpOffset gGD128MWpMap scount * 4096 }
    else range
  else if d.wp_type = .xmca then
    let num := offset >>> (MID_CAPBITS d.mid - 7)
    { range with maxval := prvFindFromWpOffset gXmcaWpMap num <<< (MID_CAPBITS d.mid - 7) }
  else range

/-- Concrete GD write-protect descriptor with 8 MiB capacity, as in the
C2 scenario. -/
def c2Flash : HalSpiFlash :=
  { hwp := 0, mid := 0x1740C8, capacity := 8 <<< 20, sreg_block_size := 1024,
    type := .gd, wp_type := .gd, uid_type := 0, cpid_type := 0,
    sreg_min_num := 1, sreg_max_num := 3, volatile_sr_en := true,
    suspend_en := true, sfdp_en := true, write_sr12 := false,
    has_sr2 := true, has_sus1 := true, has_sus2 := false }

/-- C2 counterexample: on the GD 8 MiB descriptor,
`halSpiFlashWpRange(d, 0, 1)` has maxval 0, not the full 8 MiB capacity as
the claim states: the reverse lookup returns the largest table threshold
at or below `offset / 4K`, which at offset 0 is the terminal 0 entry. -/
theorem wp_range_gd8m_counterexample :
    ¬ ((halSpiFlashWpRange c2Flash 0 1).maxval = 8 * 1024 * 1024)
    ∧ halSpiFlashWpRange c2Flash 0 1 = ⟨0, 0⟩ := by
  decide

/-- C2 as amended: on the GD 8 MiB descriptor `halSpiFlashWpRange(d, 0, 1)`
returns `{0, 0}` (nothing stays protected when unprotecting from address
0), and the maxval equals the full 8 MiB capacity exactly for offsets of
8 MiB and above, where the lookup hits the top table entry (2048 sectors
of 4K). -/
theorem wp_range_gd8m_amended :
    halSpiFlashWpRange c2Flash 0 1 = ⟨0, 0⟩
    ∧ ∀ off, 8 * 1024 * 1024 ≤ off →
        halSpiFlashWpRange c2Flash off 1 = ⟨0, 8 * 1024 * 1024⟩ := by
  refine ⟨by decide, ?_⟩
  intro off hoff
  have h2 : (2048 : Nat) ≤ off / 4096 := by omega
  have htab : prvFindFromWpOffset gGD64MWpMap (off / 4096) = 2048 := by
    unfold gGD64MWpMap
    rw [prvFindFromWpOffset_cons, if_pos h2]
  unfold halSpiFlashWpRange
  rw [if_pos (by decide)]
  rw [if_neg (by decide), if_neg (by decide), if_neg (by decide), if_pos (by decide)]
  show OsiUintRange.mk 0 (prvFindFromWpOffset gGD64MWpMap (off / 4096) * 4096) = ⟨0, 8 * 1024 * 1024⟩
  rw [htab]

theorem wp_range_gd8m_amended_witness :
    halSpiFlashWpRange c2Flash 0 1 = ⟨0, 0⟩
    ∧ halSpiFlashWpRange c2Flash (8 * 1024 * 1024) 1 = ⟨0, 8 * 1024 * 1024⟩ :=
  ⟨wp_range_gd8m_amended.1, wp_range_gd8m_amended.2 (8 * 1024 * 1024) (by omega)⟩

/-- Embeds one search loop of `prvFlashPropsByMid`: return the first table
record whose `mid` equals the query (the C loop keeps the first matching
index and breaks). -/
def prvFindProp : List HalSpiFlash → Nat → Option HalSpiFlash
  | [], _ => none
  | p :: rest, m => if p.mid = m then some p else prvFindProp rest m

/-- Embeds the `prvByteCopy` of the matched property record into the
descriptor (every field from `capacity` through the flag bits) followed by
the two overrides of `prvFlashPropsByMid`: `d->mid = mid` and
`d->capacity = 1 << MID_CAPBITS(mid)`. -/
def flashCopyProps (d p : HalSpiFlash) (mid : Nat) : HalSpiFlash :=
  { d with
      mid := mid,
      capacity := 2 ^ MID_CAPBITS mid,
      sreg_block_size := p.sreg_block_size,
      type := p.type,
      wp_type := p.wp_type,
      uid_type := p.uid_type,
      cpid_type := p.cpid_type,
      sreg_min_num := p.sreg_min_num,
      sreg_max_num := p.sreg_max_num,
      volatile_sr_en := p.volatile_sr_en,
      suspend_en := p.suspend_en,
      sfdp_en := p.sfdp_en,
      write_sr12 := p.write_sr12,
      has_sr2 := p.has_sr2,
      has_sus1 := p.has_sus1,
      has_sus2 := p.has_sus2 }

/-- Embeds `prvFlashPropsByMid` over an arbitrary property table (the
concrete `gSpiFlashProps` contents come from the missing generated header
`hal_spi_flash_prop.h`): exact mid match first, then the 16-bit mask
(vendor and memory type), then the 8-bit mask (vendor); `none` is the
`osiPanic()` path. -/
def prvFlashPropsByMid (table : List HalSpiFlash) (d : HalSpiFlash) (mid : Nat) :
    Option HalSpiFlash :=
  match prvFindProp table mid with
  | some p => some (flashCopyProps d p mid)
  | none =>
    match prvFindProp table (mid % 65536) with
    | some p => some (flashCopyProps d p mid)
    | none =>
      match prvFindProp table (mid % 256) with
      | some p => some (flashCopyProps d p mid)
      | none => none

/-- Embeds `halSpiFlashInit` up to its descriptor contents: read the JEDEC
id (`mid` parameter here), bind the properties; the subsequent
`halSpiFlashStatusCheck` writes flash status registers and leaves the
descriptor unchanged. -/
def halSpiFlashInit (table : List HalSpiFlash) (d : HalSpiFlash) (mid : Nat) :
    Option HalSpiFlash :=
  prvFlashPropsByMid table d mid

theorem prvFindProp_eq_find (table : List HalSpiFlash) (m : Nat) :
    prvFindProp table m = table.find? (fun r => r.mid == m) := by
  induction table with
  | nil => rfl
  | cons p rest ih =>
      unfold prvFindProp
      by_cases hp : p.mid = m
      · rw [if_pos hp, List.find?_cons_of_pos _ (by simpa using hp)]
      · rw [if_neg hp, List.find?_cons_of_neg _ (by simpa using hp), ih]

/-- C7: the property lookup of `halSpiFlashInit` tries an exact mid match,
then the 16-bit masked match, then the 8-bit masked match, in that order;
with no match at any level it panics (`none`); on a hit it copies the
first matching record and overrides `mid` to the observed value and
`capacity` to `1 <<< (capacity bits of the observed mid)`. -/
theorem flash_props_lookup (table : List HalSpiFlash) (d : HalSpiFlash) (mid : Nat) :
    (prvFlashPropsByMid table d mid = none ↔
      ∀ p ∈ table, p.mid ≠ mid ∧ p.mid ≠ mid % 65536 ∧ p.mid ≠ mid % 256)
    ∧ (∀ p, table.find? (fun r => r.mid == mid) = some p →
        prvFlashPropsByMid table d mid = some (flashCopyProps d p mid))
    ∧ (table.find? (fun r => r.mid == mid) = none →
        ∀ p, table.find? (fun r => r.mid == mid % 65536) = some p →
          prvFlashPropsByMid table d mid = some (flashCopyProps d p mid))
    ∧ (table.find? (fun r => r.mid == mid) = none →
        table.find? (fun r => r.mid == mid % 65536) = none →
        ∀ p, table.find? (fun r => r.mid == mid % 256) = some p →
          prvFlashPropsByMid table d mid = some (flashCopyProps d p mid))
    ∧ (∀ p, prvFlashPropsByMid table d mid = some p →
        p.mid = mid ∧ p.capacity = 2 ^ ((mid >>> 16) % 256)) := by
  refine ⟨?_, ?_, ?_, ?_, ?_⟩
  · unfold prvFlashPropsByMid
    rw [prvFindProp_eq_find, prvFindProp_eq_find, prvFindProp_eq_find]
    constructor
    · intro hnone p hp
      cases hfind : table.find? (fun r => r.mid == mid) with
      | some q => rw [hfind] at hnone; exact Option.noConfusion hnone
      | none =>
          rw [hfind] at hnone
          cases hfind2 : table.find? (fun r => r.mid == mid % 65536) with
          | some q => rw [hfind2] at hnone; exact Option.noConfusion hnone
          | none =>
              rw [hfind2] at hnone
              cases hfind3 : table.find? (fun r => r.mid == mid % 256) with
              | some q => rw [hfind3] at hnone; exact Option.noConfusion hnone
              | none =>
                  have e1 := List.find?_eq_none.mp hfind p hp
                  have e2 := List.find?_eq_none.mp hfind2 p hp
                  have e3 := List.find?_eq_none.mp hfind3 p hp
                  simp at e1 e2 e3
                  exact ⟨e1, e2, e3⟩
    · intro hall
      have h1 : table.find? (fun r => r.mid == mid) = none :=
        List.find?_eq_none.mpr (fun p hp => by simpa using (hall p hp).1)
      have h2 : table.find? (fun r => r.mid == mid % 65536) = none :=
        List.find?_eq_none.mpr (fun p hp => by simpa using (hall p hp).2.1)
      have h3 : table.find? (fun r => r.mid == mid % 256) = none :=
        List.find?_eq_none.mpr (fun p hp => by simpa using (hall p hp).2.2)
      rw [h1, h2, h3]
  · intro p hfind
    unfold prvFlashPropsByMid
    rw [prvFindProp_eq_find, hfind]
  · intro hnone p hfind
    unfold prvFlashPropsByMid
    rw [prvFindProp_eq_find, prvFindProp_eq_find, hnone, hfind]
  · intro hnone hnone2 p hfind
    unfold prvFlashPropsByMid
    rw [prvFindProp_eq_find, prvFindProp_eq_find, prvFindProp_eq_find, hnone, hnone2, hfind]
  · intro p hsome
    unfold prvFlashPropsByMid at hsome
    cases h1 : prvFindProp table mid with
    | some q =>
        rw [h1] at hsome
        cases hsome
        exact ⟨rfl, rfl⟩
    | none =>
        rw [h1] at hsome
        cases h2 : prvFindProp table (mid % 65536) with
        | some q =>
            rw [h2] at hsome
            cases hsome
            exact ⟨rfl, rfl⟩
        | none =>
            rw [h2] at hsome
            cases h3 : prvFindProp table (mid % 256) with
            | some q =>
                rw [h3] at hsome
                cases hsome
                exact ⟨rfl, rfl⟩
            | none =>
                rw [h3] at hsome
                exact Option.noConfusion hsome

/-- Toy table record with the 16-bit generic GD mid 0x40C8, for the C7
witness (scenario: observed RDID C8 40 18, exact match missing, 16-bit
fallback hits). -/
def propVendorGD : HalSpiFlash :=
  { hwp := 0, mid := 0x40C8, capacity := 8 <<< 20, sreg_block_size := 1024,
    type := .gd, wp_type := .gd, uid_type := 0, cpid_type := 0,
    sreg_min_num := 1, sreg_max_num := 3, volatile_sr_en := true,
    suspend_en := true, sfdp_en := true, write_sr12 := false,
    has_sr2 := true, has_sus1 := true, has_sus2 := false }

theorem flash_props_lookup_witness :
    prvFlashPropsByMid [c2Flash, propVendorGD] c2Flash 0x1840C8
      = some (flashCopyProps c2Flash propVendorGD 0x1840C8) :=
  (flash_props_lookup [c2Flash, propVendorGD] c2Flash 0x1840C8).2.2.1
    (by decide) propVendorGD (by decide)

/-- A security register command as issued to the flash: opcode byte and
physical byte address. -/
structure SregCmd where
  opcode : Nat
  address : Nat
deriving DecidableEq, Repr

/-- Embeds `halSpiFlashReadSecurityRegister`: gate on the register number
range and on the sum `address + size` against the block size, then
dispatch the vendor opcode (48H for the GD family, 68H for XMCB) at
physical address `(num << 12) | address`; `none` is the `return false`
paths (including the XMCA default case). The sum is the C `uint32_t`
addition of a `uint16_t` address and a `uint32_t` size, so it wraps
modulo 2^32. -/
def halSpiFlashReadSecurityRegister (d : HalSpiFlash) (num address size : Nat) :
    Option SregCmd :=
  if num < d.sreg_min_num ∨ num > d.sreg_max_num then none
  else if (address + size) % 4294967296 > d.sreg_block_size then none
  else
    match d.type with
    | .gd | .winbond | .xmcc | .xtx | .puya => some ⟨0x48, (num <<< 12) ||| address⟩
    | .xmcb => some ⟨0x68, (num <<< 12) ||| address⟩
    | .xmca => none

/-- Embeds `halSpiFlashProgramSecurityRegister` (42H for the GD family,
62H for XMCB); the `address + size` gate wraps modulo 2^32 exactly as in
the read path. -/
def halSpiFlashProgramSecurityRegister (d : HalSpiFlash) (num address size : Nat) :
    Option SregCmd :=
  if num < d.sreg_min_num ∨ num > d.sreg_max_num then none
  else if (address + size) % 4294967296 > d.sreg_block_size then none
  else
    match d.type with
    | .gd | .winbond | .xmcc | .xtx | .puya => some ⟨0x42, (num <<< 12) ||| address⟩
    | .xmcb => some ⟨0x62, (num <<< 12) ||| address⟩
    | .xmca => none

/-- Embeds `halSpiFlashEraseSecurityRegister` (44H for the GD family, 64H
for XMCB, at physical address `num << 12`); also fails when the block size
is 0 (no security registers). -/
def halSpiFlashEraseSecurityRegister (d : HalSpiFlash) (num : Nat) : Option SregCmd :=
  if num < d.sreg_min_num ∨ num > d.sreg_max_num then none
  else if d.sreg_block_size = 0 then none
  else
    match d.type with
    | .gd | .winbond | .xmcc | .xtx | .puya => some ⟨0x44, num <<< 12⟩
    | .xmcb => some ⟨0x64, num <<< 12⟩
    | .xmca => none

/-- Embeds `halSpiFlashLockSecurityRegister`: the same number gate, then
the vendor lock routine (GD family lock bits in SR12, XTX LB bit, XMCB
function register); false on the default case. The lock routines
manipulate status registers and issue no addressed command. -/
def halSpiFlashLockSecurityRegister (d : HalSpiFlash) (num : Nat) : Bool :=
  if num < d.sreg_min_num ∨ num > d.sreg_max_num then false
  else
    match d.type with
    | .gd | .winbond | .xmcc | .puya => true
    | .xtx => true
    | .xmcb => true
    | .xmca => false

/-- C8 counterexample: with `num` in range, `address = 1` and
`size = 0xFFFFFFFF` the mathematical sum `address + size` exceeds the
1024-byte block, yet the C gate computes the wrapping `uint32_t` sum
`(1 + 0xFFFFFFFF) mod 2^32 = 0`, the check passes and the read and
program commands are issued, instead of the failure the claim asserts. -/
theorem sreg_gate_wrap_counterexample :
    1 + 4294967295 > c2Flash.sreg_block_size
    ∧ ¬ (halSpiFlashReadSecurityRegister c2Flash 2 1 4294967295 = none)
    ∧ ¬ (halSpiFlashProgramSecurityRegister c2Flash 2 1 4294967295 = none)
    ∧ halSpiFlashReadSecurityRegister c2Flash 2 1 4294967295
        = some ⟨0x48, (2 <<< 12) ||| 1⟩
    ∧ halSpiFlashProgramSecurityRegister c2Flash 2 1 4294967295
        = some ⟨0x42, (2 <<< 12) ||| 1⟩ := by
  decide

/-- C8 as amended: the security register operations all fail when `num`
lies outside `[sreg_min_num, sreg_max_num]`; read and program additionally
fail when the wrapping 32-bit unsigned sum `(address + size) mod 2^32`
exceeds `sreg_block_size` (the gate does not reject inputs whose
mathematical sum overflows back to at most the block size); every issued
read or program command is addressed at `(num << 12) | address` and every
issued erase command at `num << 12` (which equals `(num << 12) | 0`). -/
theorem sreg_ops_gating (d : HalSpiFlash) (num address size : Nat) :
    ((num < d.sreg_min_num ∨ num > d.sreg_max_num) →
        halSpiFlashReadSecurityRegister d num address size = none
        ∧ halSpiFlashProgramSecurityRegister d num address size = none
        ∧ halSpiFlashEraseSecurityRegister d num = none
        ∧ halSpiFlashLockSecurityRegister d num = false)
    ∧ ((address + size) % 4294967296 > d.sreg_block_size →
        halSpiFlashReadSecurityRegister d num address size = none
        ∧ halSpiFlashProgramSecurityRegister d num address size = none)
    ∧ (∀ c, halSpiFlashReadSecurityRegister d num address size = some c →
        c.address = (num <<< 12) ||| address)
    ∧ (∀ c, halSpiFlashProgramSecurityRegister d num address size = some c →
        c.address = (num <<< 12) ||| address)
    ∧ (∀ c, halSpiFlashEraseSecurityRegister d num = some c →
        c.address = num <<< 12) := by
  refine ⟨?_, ?_, ?_, ?_, ?_⟩
  · intro hnum
    unfold halSpiFlashReadSecurityRegister halSpiFlashProgramSecurityRegister
      halSpiFlashEraseSecurityRegister halSpiFlashLockSecurityRegister
    rw [if_pos hnum, if_pos hnum, if_pos hnum, if_pos hnum]
    exact ⟨rfl, rfl, rfl, rfl⟩
  · intro haddr
    unfold halSpiFlashReadSecurityRegister halSpiFlashProgramSecurityRegister
    by_cases hnum : num < d.sreg_min_num ∨ num > d.sreg_max_num
    · rw [if_pos hnum, if_pos hnum]
      exact ⟨rfl, rfl⟩
    · rw [if_neg hnum, if_neg hnum, if_pos haddr, if_pos haddr]
      exact ⟨rfl, rfl⟩
  · intro c hc
    unfold halSpiFlashReadSecurityRegister at hc
    split_ifs at hc
    cases htype : d.type <;> rw [htype] at hc <;> first
      | exact Option.noConfusion hc
      | (cases hc; rfl)
  · intro c hc
    unfold halSpiFlashProgramSecurityRegister at hc
    split_ifs at hc
    cases htype : d.type <;> rw [htype] at hc <;> first
      | exact Option.noConfusion hc
      | (cases hc; rfl)
  · intro c hc
    unfold halSpiFlashEraseSecurityRegister at hc
    split_ifs at hc
    cases htype : d.type <;> rw [htype] at hc <;> first
      | exact Option.noConfusion hc
      | (cases hc; rfl)

theorem sreg_ops_gating_witness :
    (halSpiFlashReadSecurityRegister c2Flash 9 0 1 = none
      ∧ halSpiFlashProgramSecurityRegister c2Flash 9 0 1 = none
      ∧ halSpiFlashEraseSecurityRegister c2Flash 9 = none
      ∧ halSpiFlashLockSecurityRegister c2Flash 9 = false)
    ∧ (halSpiFlashReadSecurityRegister c2Flash 2 2000 3000 = none
      ∧ halSpiFlashProgramSecurityRegister c2Flash 2 2000 3000 = none)
    ∧ ∀ c, halSpiFlashReadSecurityRegister c2Flash 2 8 4 = some c →
        c.address = (2 <<< 12) ||| 8 :=
  ⟨(sreg_ops_gating c2Flash 9 0 1).1 (by decide),
    (sreg_ops_gating c2Flash 2 2000 3000).2.1 (by decide),
    (sreg_ops_gating c2Flash 2 8 4).2.2.1⟩
